import Mathlib

/-!
Verification of the Ariadne clinical-term mapping pipeline.

The definitions below are a shallow embedding of the Python sources:
  * `src/ariadne/verbatim_mapping/term_normalizer.py`   (TermNormalizer.normalize_term)
  * `src/ariadne/verbatim_mapping/vocab_verbatim_term_mapper.py`
      (VocabVerbatimTermMapper._create_index / map_term)
  * `src/ariadne/llm_mapping/llm_mapper.py`             (LlmMapper.map_term / get_total_cost)

Strings are modelled as lists of characters; Python regular expressions
are translated to explicit character scans (ASCII semantics for the
classes \w, \s and \d; all inputs appearing in the theorems are ASCII).
The spaCy lemmatizer used by `normalize_term` is an external model and is
represented by a function parameter `lem : String → String`; everything
around it is translated from the source.  The external LLM provider
(`get_llm_response`) is likewise an oracle parameter.
-/

/-- The apostrophe character (code 39), used by the possessive rule of
`TermNormalizer.normalize_term`. -/
def apos : Char := Char.ofNat 39

/-- The opening-brace character (code 123), used by the JSON span regex
of `LlmMapper.map_term`. -/
def lbrace : Char := Char.ofNat 123

/-- The closing-brace character (code 125). -/
def rbrace : Char := Char.ofNat 125

/-- Python whitespace class `\s`, restricted to ASCII: space, tab,
newline, carriage return, vertical tab (11) and form feed (12). -/
def isPySpace (c : Char) : Bool :=
  c = ' ' || c = '\t' || c = '\n' || c = '\r' || c = Char.ofNat 11 || c = Char.ofNat 12

/-- Python word-character class `\w`, restricted to ASCII: letters,
digits and underscore. -/
def isWordChar (c : Char) : Bool :=
  c.isAlphanum || c = '_'

/-- Fuel-driven worker for `pyReplace`. The fuel starts at the length of
the subject, which suffices because every step consumes at least one
character of the subject. -/
def pyReplaceGo (pat rep : List Char) : Nat → List Char → List Char
  | 0, l => l
  | Nat.succ n, l =>
    match l with
    | [] => []
    | c :: cs =>
      if pat ≠ [] && pat.isPrefixOf (c :: cs) then
        rep ++ pyReplaceGo pat rep n (List.drop (pat.length - 1) cs)
      else
        c :: pyReplaceGo pat rep n cs

/-- Python `str.replace(pat, rep)`: replace every non-overlapping
occurrence of `pat`, scanning left to right.  (For the empty pattern the
subject is returned unchanged; the sources never replace an empty
pattern.) -/
def pyReplace (pat rep l : List Char) : List Char :=
  pyReplaceGo pat rep l.length l

/-- Word-boundary test after a matched `'s`: the regex `(\w)'s\b` of
`normalize_term` requires the next character (if any) to not be a word
character. -/
def boundaryOk (rest : List Char) : Bool :=
  match rest with
  | [] => true
  | d :: _ => !isWordChar d

/-- Step 2 of `normalize_term`: `re.sub(r"(\w)'s\b", r"\1", term)`.
Scans left to right; on a match the `'s` is dropped and scanning resumes
after the match (non-overlapping), otherwise it advances one character. -/
def possSub : List Char → List Char
  | [] => []
  | [c] => [c]
  | [c, d] => [c, d]
  | c :: q :: s :: rest2 =>
    if isWordChar c && q = apos && s = 's' && boundaryOk rest2 then
      c :: possSub rest2
    else
      c :: possSub (q :: s :: rest2)

/-- Step 4 of `normalize_term`: `re.sub(r'[^\w\s]', ' ', term)` —
every character that is neither a word character nor whitespace becomes
a space. -/
def punctSub (l : List Char) : List Char :=
  l.map (fun c => if isWordChar c || isPySpace c then c else ' ')

/-- Whitespace tokenizer worker; `cur` is the current token, reversed. -/
def splitWsGo : List Char → List Char → List (List Char)
  | [], cur => if cur = [] then [] else [cur.reverse]
  | c :: cs, cur =>
    if isPySpace c then
      if cur = [] then splitWsGo cs [] else cur.reverse :: splitWsGo cs []
    else
      splitWsGo cs (c :: cur)

/-- Tokenization of the cleaned term.  After step 4 the string contains
only word characters and whitespace, on which the spaCy tokenizer used
by `normalize_term` coincides with whitespace splitting. -/
def splitWs (l : List Char) : List (List Char) :=
  splitWsGo l []

/-- Step 7 of `normalize_term`: `" ".join(processed_tokens)`. -/
def joinWs : List (List Char) → List Char
  | [] => []
  | [t] => t
  | t :: rest => t ++ ' ' :: joinWs rest

/-- The lemmatizer lifted to character lists. -/
def lemOnChars (lem : String → String) (t : List Char) : List Char :=
  (lem (String.mk t)).data

/-- Python truthiness of `lemma.strip()` in step 6 of `normalize_term`:
the stripped lemma is non-empty iff some character is not whitespace. -/
def tokKeep (t : List Char) : Bool :=
  t.any (fun c => !isPySpace c)

/-- Steps 1–4 of `normalize_term`: lowercase, strip possessives, remove
the four bracketed qualifiers (each replaced by a space), replace
punctuation by spaces. -/
def preNorm (l : List Char) : List Char :=
  punctSub
    (pyReplace "(procedure)".data [' ']
      (pyReplace "(finding)".data [' ']
        (pyReplace "(event)".data [' ']
          (pyReplace "(disorder)".data [' ']
            (possSub (l.map Char.toLower))))))

/-- `TermNormalizer.normalize_term` (term_normalizer.py lines 36–82),
parameterized by the external spaCy lemmatizer `lem`: lowercase, drop
possessive `'s`, remove the literal substrings `(disorder)`, `(event)`,
`(finding)`, `(procedure)`, replace punctuation by spaces, tokenize,
lemmatize each token, drop lemmas that are empty after stripping, and
join the survivors with single spaces. -/
def normalize_term (lem : String → String) (s : String) : String :=
  String.mk (joinWs (((splitWs (preNorm s.data)).map (lemOnChars lem)).filter tokKeep))

example : preNorm "Liver-Disorders".data = "liver disorders".data := by decide

example : splitWs (preNorm "Liver-Disorders".data) = ["liver".data, "disorders".data] := by
  decide

example :
    splitWs (preNorm ("Prinzmetal" ++ String.mk [apos] ++ "s angina").data)
      = ["prinzmetal".data, "angina".data] := by decide

example : splitWs (preNorm "Severe depression (disorder)".data)
      = ["severe".data, "depression".data] := by decide

/-- `String.mk` and `String.data` are inverse. -/
theorem string_mk_data (s : String) : String.mk s.data = s := rfl

/-- C5: `TermNormalizer.normalize_term` applies lowercasing, possessive
stripping, qualifier removal, punctuation replacement, lemmatization,
empty-lemma dropping and joining in that order; in particular
`normalize("Liver-Disorders") = normalize("Liver disorder")` (given that
the lemmatizer sends "disorders" and "disorder" to the same lemma),
`normalize("Prinzmetal's angina") = normalize("Prinzmetal angina")`, and
`normalize("Severe depression (disorder)")` drops the bracketed
qualifier, i.e. equals `normalize("Severe depression")`. -/
theorem normalize_equivalence_examples (lem : String → String)
    (h : lem "disorders" = lem "disorder") :
    normalize_term lem "Liver-Disorders" = normalize_term lem "Liver disorder" ∧
    normalize_term lem ("Prinzmetal" ++ String.mk [apos] ++ "s angina")
      = normalize_term lem "Prinzmetal angina" ∧
    normalize_term lem "Severe depression (disorder)"
      = normalize_term lem "Severe depression" := by
  have e : lemOnChars lem "disorders".data = lemOnChars lem "disorder".data := by
    simp only [lemOnChars, string_mk_data, h]
  refine ⟨?_, ?_, ?_⟩ <;> simp only [normalize_term]
  · rw [show splitWs (preNorm "Liver-Disorders".data)
          = ["liver".data, "disorders".data] from by decide,
        show splitWs (preNorm "Liver disorder".data)
          = ["liver".data, "disorder".data] from by decide]
    simp only [List.map_cons, List.map_nil]
    rw [e]
  · rw [show splitWs (preNorm ("Prinzmetal" ++ String.mk [apos] ++ "s angina").data)
          = ["prinzmetal".data, "angina".data] from by decide,
        show splitWs (preNorm "Prinzmetal angina".data)
          = ["prinzmetal".data, "angina".data] from by decide]
  · rw [show splitWs (preNorm "Severe depression (disorder)".data)
          = ["severe".data, "depression".data] from by decide,
        show splitWs (preNorm "Severe depression".data)
          = ["severe".data, "depression".data] from by decide]

/-- A concrete lemmatizer used to exhibit satisfiability of the
lemmatizer hypotheses: it sends every token to a fixed lowercase word. -/
def lemX : String → String := fun _ => "x"

/-- A concrete lemmatizer sending "disorders" to "disorder" and keeping
everything else, used to instantiate the normalization theorems. -/
def lemDis : String → String := fun s => if s = "disorders" then "disorder" else s

/-- Witness for the normalization-equivalence theorem at the concrete
lemmatizer `lemDis`. -/
theorem normalize_equivalence_witness :
    normalize_term lemDis "Liver-Disorders" = normalize_term lemDis "Liver disorder" ∧
    normalize_term lemDis ("Prinzmetal" ++ String.mk [apos] ++ "s angina")
      = normalize_term lemDis "Prinzmetal angina" ∧
    normalize_term lemDis "Severe depression (disorder)"
      = normalize_term lemDis "Severe depression" :=
  normalize_equivalence_examples lemDis (by decide)

/-- Word characters are never Python whitespace. -/
theorem isWordChar_not_space {c : Char} (h : isWordChar c = true) : isPySpace c = false := by
  cases hq : isPySpace c with
  | false => rfl
  | true =>
    exfalso
    simp only [isPySpace, Bool.or_eq_true, decide_eq_true_eq] at hq
    rcases hq with ((((h1 | h1) | h1) | h1) | h1) | h1 <;> subst h1 <;>
      exact absurd h (by decide)

/-- Mapping `Char.toLower` over a list of characters it fixes is the
identity. -/
theorem map_toLower_eq_self (l : List Char) (h : ∀ c ∈ l, c.toLower = c) :
    l.map Char.toLower = l := by
  induction l with
  | nil => rfl
  | cons c cs ih =>
    simp only [List.map_cons]
    rw [h c (by simp), ih (fun d hd => h d (List.mem_cons_of_mem _ hd))]

/-- The possessive substitution is the identity on strings containing no
apostrophe. -/
theorem possSub_eq_self : ∀ l : List Char, (∀ c ∈ l, c ≠ apos) → possSub l = l
  | [], _ => rfl
  | [_], _ => rfl
  | [_, _], _ => rfl
  | c :: q :: s :: rest2, h => by
    have hq : q ≠ apos := h q (by simp)
    have hcond : (isWordChar c && q = apos && s = 's' && boundaryOk rest2) = false := by
      simp [hq]
    rw [possSub, hcond]
    simp only [Bool.false_eq_true, if_false]
    exact congrArg (c :: ·)
      (possSub_eq_self (q :: s :: rest2) (fun d hd => h d (List.mem_cons_of_mem _ hd)))

/-- The replace worker is the identity when the first character of the
pattern never occurs in the subject. -/
theorem pyReplaceGo_eq_self (p : Char) (ps rep : List Char) :
    ∀ (n : Nat) (l : List Char), (∀ c ∈ l, c ≠ p) → pyReplaceGo (p :: ps) rep n l = l
  | 0, _, _ => rfl
  | Nat.succ _, [], _ => rfl
  | Nat.succ n, c :: cs, h => by
    have hc : c ≠ p := h c (by simp)
    have hpre : (p :: ps).isPrefixOf (c :: cs) = false := by
      simp only [List.isPrefixOf, Bool.and_eq_false_iff]
      left
      simp [Ne.symm hc]
    rw [pyReplaceGo, hpre]
    simp only [Bool.and_false, Bool.false_eq_true, if_false]
    exact congrArg (c :: ·)
      (pyReplaceGo_eq_self p ps rep n cs (fun d hd => h d (List.mem_cons_of_mem _ hd)))

/-- `pyReplace` is the identity when the first character of the pattern
never occurs in the subject. -/
theorem pyReplace_eq_self (p : Char) (ps rep l : List Char) (h : ∀ c ∈ l, c ≠ p) :
    pyReplace (p :: ps) rep l = l :=
  pyReplaceGo_eq_self p ps rep l.length l h

/-- The punctuation substitution is the identity when every character is
a word character or whitespace. -/
theorem punctSub_eq_self (l : List Char)
    (h : ∀ c ∈ l, isWordChar c = true ∨ isPySpace c = true) :
    punctSub l = l := by
  induction l with
  | nil => rfl
  | cons c cs ih =>
    simp only [punctSub, List.map_cons]
    have hc : (isWordChar c || isPySpace c) = true := by
      rcases h c (by simp) with h1 | h1 <;> simp [h1]
    rw [hc]
    simp only [if_true]
    exact congrArg (c :: ·) (ih (fun d hd => h d (List.mem_cons_of_mem _ hd)))

/-- Scanning a whitespace-free chunk accumulates it onto the current
token. -/
theorem splitWsGo_chunk (w : List Char) :
    ∀ (rest cur : List Char), (∀ c ∈ w, isPySpace c = false) →
      splitWsGo (w ++ rest) cur = splitWsGo rest (w.reverse ++ cur) := by
  induction w with
  | nil => intro rest cur _; simp
  | cons c cs ih =>
    intro rest cur h
    have hc : isPySpace c = false := h c (by simp)
    simp only [List.cons_append, splitWsGo, hc, Bool.false_eq_true, if_false, List.append_eq]
    rw [ih rest (c :: cur) (fun d hd => h d (List.mem_cons_of_mem _ hd))]
    simp

/-- Splitting the space-joined list of non-empty whitespace-free tokens
recovers the tokens. -/
theorem splitWs_joinWs :
    ∀ L : List (List Char),
      (∀ w ∈ L, w ≠ [] ∧ ∀ c ∈ w, isPySpace c = false) → splitWs (joinWs L) = L
  | [], _ => rfl
  | [t], h => by
    have ht := h t (by simp)
    show splitWsGo (joinWs [t]) [] = [t]
    rw [show joinWs [t] = t from rfl, show (t : List Char) = t ++ [] from by simp,
      splitWsGo_chunk t [] [] ht.2]
    simp only [splitWsGo, List.append_nil]
    rw [if_neg (by simpa using ht.1)]
    simp
  | t :: u :: rest, h => by
    have ht := h t (by simp)
    show splitWsGo (joinWs (t :: u :: rest)) [] = t :: u :: rest
    rw [show joinWs (t :: u :: rest) = t ++ ' ' :: joinWs (u :: rest) from rfl,
      splitWsGo_chunk t (' ' :: joinWs (u :: rest)) [] ht.2]
    simp only [splitWsGo, show isPySpace ' ' = true from rfl, if_true, List.append_nil]
    rw [if_neg (by simpa using ht.1)]
    simp only [List.reverse_reverse]
    exact congrArg (t :: ·)
      (splitWs_joinWs (u :: rest) (fun w hw => h w (List.mem_cons_of_mem _ hw)))

/-- Every character of the space-joined list is a space or a character
of one of the joined tokens. -/
theorem mem_joinWs :
    ∀ (L : List (List Char)) (c : Char), c ∈ joinWs L → c = ' ' ∨ ∃ w ∈ L, c ∈ w
  | [], _, hc => by simp [joinWs] at hc
  | [t], c, hc => by
    right
    exact ⟨t, by simp, by simpa [joinWs] using hc⟩
  | t :: u :: rest, c, hc => by
    rw [show joinWs (t :: u :: rest) = t ++ ' ' :: joinWs (u :: rest) from rfl] at hc
    rcases List.mem_append.mp hc with h1 | h1
    · exact Or.inr ⟨t, by simp, h1⟩
    · rcases List.mem_cons.mp h1 with h2 | h2
      · exact Or.inl h2
      · rcases mem_joinWs (u :: rest) c h2 with h3 | ⟨w, hw, hcw⟩
        · exact Or.inl h3
        · exact Or.inr ⟨w, List.mem_cons_of_mem _ hw, hcw⟩

/-- C6: `TermNormalizer.normalize_term` is idempotent: applying the
normalization pipeline to an already-normalized string leaves it
unchanged, for every input string.  The external spaCy lemmatizer is any
function whose output lemmas consist of lowercase word characters and
which is idempotent on its own output. -/
theorem normalize_idempotent (lem : String → String)
    (himg : ∀ s c, c ∈ (lem s).data → isWordChar c = true ∧ c.toLower = c)
    (hidem : ∀ s, lem (lem s) = lem s) (x : String) :
    normalize_term lem (normalize_term lem x) = normalize_term lem x := by
  set lems := ((splitWs (preNorm x.data)).map (lemOnChars lem)).filter tokKeep with hlemsdef
  have hprov : ∀ w ∈ lems, ∃ u, w = lemOnChars lem u := by
    intro w hw
    rcases List.mem_map.mp (List.mem_of_mem_filter hw) with ⟨u, _, hu⟩
    exact ⟨u, hu.symm⟩
  have hkeep : ∀ w ∈ lems, tokKeep w = true := fun w hw => List.of_mem_filter hw
  have hchars : ∀ w ∈ lems, ∀ c ∈ w, isWordChar c = true ∧ c.toLower = c := by
    intro w hw c hc
    rcases hprov w hw with ⟨u, rfl⟩
    simp only [lemOnChars] at hc
    exact himg _ c hc
  have hnospace : ∀ w ∈ lems, ∀ c ∈ w, isPySpace c = false := fun w hw c hc =>
    isWordChar_not_space (hchars w hw c hc).1
  have hne : ∀ w ∈ lems, w ≠ [] := by
    intro w hw hemp
    have hk := hkeep w hw
    rw [hemp] at hk
    simp [tokKeep] at hk
  have hyc : ∀ c ∈ joinWs lems, (isWordChar c = true ∨ c = ' ') ∧ c.toLower = c := by
    intro c hc
    rcases mem_joinWs lems c hc with h1 | ⟨w, hw, hcw⟩
    · subst h1
      exact ⟨Or.inr rfl, by decide⟩
    · exact ⟨Or.inl (hchars w hw c hcw).1, (hchars w hw c hcw).2⟩
  have s1 : (joinWs lems).map Char.toLower = joinWs lems :=
    map_toLower_eq_self _ (fun c hc => (hyc c hc).2)
  have hnoapos : ∀ c ∈ joinWs lems, c ≠ apos := by
    intro c hc heq
    rcases (hyc c hc).1 with h1 | h1
    · rw [heq] at h1; exact absurd h1 (by decide)
    · rw [h1] at heq; exact absurd heq (by decide)
  have s2 : possSub (joinWs lems) = joinWs lems := possSub_eq_self _ hnoapos
  have hnoparen : ∀ c ∈ joinWs lems, c ≠ '(' := by
    intro c hc heq
    rcases (hyc c hc).1 with h1 | h1
    · rw [heq] at h1; exact absurd h1 (by decide)
    · rw [h1] at heq; exact absurd heq (by decide)
  have s3a : pyReplace "(disorder)".data [' '] (joinWs lems) = joinWs lems := by
    rw [show "(disorder)".data = '(' :: "disorder)".data from by decide]
    exact pyReplace_eq_self '(' _ _ _ hnoparen
  have s3b : pyReplace "(event)".data [' '] (joinWs lems) = joinWs lems := by
    rw [show "(event)".data = '(' :: "event)".data from by decide]
    exact pyReplace_eq_self '(' _ _ _ hnoparen
  have s3c : pyReplace "(finding)".data [' '] (joinWs lems) = joinWs lems := by
    rw [show "(finding)".data = '(' :: "finding)".data from by decide]
    exact pyReplace_eq_self '(' _ _ _ hnoparen
  have s3d : pyReplace "(procedure)".data [' '] (joinWs lems) = joinWs lems := by
    rw [show "(procedure)".data = '(' :: "procedure)".data from by decide]
    exact pyReplace_eq_self '(' _ _ _ hnoparen
  have s4 : punctSub (joinWs lems) = joinWs lems := by
    refine punctSub_eq_self _ (fun c hc => ?_)
    rcases (hyc c hc).1 with h1 | h1
    · exact Or.inl h1
    · exact Or.inr (by rw [h1]; decide)
  have s5 : preNorm (joinWs lems) = joinWs lems := by
    simp only [preNorm]
    rw [s1, s2, s3a, s3b, s3c, s3d, s4]
  have s6 : splitWs (joinWs lems) = lems :=
    splitWs_joinWs lems (fun w hw => ⟨hne w hw, hnospace w hw⟩)
  have s7 : lems.map (lemOnChars lem) = lems := by
    have hfix : ∀ w ∈ lems, lemOnChars lem w = w := by
      intro w hw
      rcases hprov w hw with ⟨u, rfl⟩
      simp only [lemOnChars, string_mk_data, hidem]
    calc lems.map (lemOnChars lem) = lems.map id := List.map_congr_left hfix
      _ = lems := List.map_id _
  have s8 : lems.filter tokKeep = lems := List.filter_eq_self.mpr hkeep
  show String.mk
      (joinWs (((splitWs (preNorm (normalize_term lem x).data)).map
        (lemOnChars lem)).filter tokKeep)) = normalize_term lem x
  rw [show (normalize_term lem x).data = joinWs lems from rfl, s5, s6, s7, s8, hlemsdef]
  rfl

/-- Witness for normalization idempotence at a concrete lemmatizer and
input. -/
theorem normalize_idempotent_witness :
    normalize_term lemX (normalize_term lemX "Liver-Disorders")
      = normalize_term lemX "Liver-Disorders" :=
  normalize_idempotent lemX
    (fun _ c hc => by
      have hx : c ∈ ['x'] := by
        simp only [lemX] at hc
        exact hc
      rw [List.mem_singleton.mp hx]
      exact ⟨by decide, by decide⟩)
    (fun _ => rfl) "Liver-Disorders"

/-- A vocabulary concept as stored in the verbatim index:
`(concept_id, concept_name)`. -/
abbrev VConcept := Int × String

/-- One input row of the verbatim index builder
(`_create_index` reads `concept_id`, `term` and `concept_name` columns;
`concept_id` is converted with `int(...)` before storage, modelled here
by taking it as an integer). -/
structure TermRow where
  concept_id : Int
  term : String
  concept_name : String
deriving DecidableEq, Repr

/-- A bucket of the index: `_create_index` stores either a single
concept tuple or a Python list of concept tuples. -/
inductive Bucket where
  | one (c : VConcept)
  | many (cs : List VConcept)
deriving DecidableEq, Repr

/-- The members of a bucket, as `map_term` returns them (a scalar bucket
is wrapped into a singleton list, vocab_verbatim_term_mapper.py lines
101–106). -/
def bucketMembers : Bucket → List VConcept
  | Bucket.one c => [c]
  | Bucket.many cs => cs

/-- The index is an association list from normalized term to bucket
(`index_data` dict, insertion ordered). -/
abbrev VIndex := List (String × Bucket)

/-- Dictionary lookup. -/
def lookupIdx : VIndex → String → Option Bucket
  | [], _ => none
  | (k, b) :: rest, q => if k = q then some b else lookupIdx rest q

/-- Updating an existing bucket with a new concept
(vocab_verbatim_term_mapper.py lines 69–76): a list bucket appends the
concept unless its concept_id is already present; a scalar bucket turns
into a two-element list unless the concept_id equals the stored one. -/
def updateBucket (b : Bucket) (c : VConcept) : Bucket :=
  match b with
  | Bucket.many cs => if c.1 ∈ cs.map Prod.fst then Bucket.many cs else Bucket.many (cs ++ [c])
  | Bucket.one e => if c.1 = e.1 then Bucket.one e else Bucket.many [e, c]

/-- Dictionary insert-or-update for one row
(vocab_verbatim_term_mapper.py lines 68–78). -/
def insertRow : VIndex → String → VConcept → VIndex
  | [], k, c => [(k, Bucket.one c)]
  | (k2, b) :: rest, k, c =>
    if k2 = k then (k2, updateBucket b c) :: rest else (k2, b) :: insertRow rest k c

/-- Processing of one row of the index build loop: insert the concept
tuple under the normalized term key. -/
def indexStep (lem : String → String) (idx : VIndex) (r : TermRow) : VIndex :=
  insertRow idx (normalize_term lem r.term) (r.concept_id, r.concept_name)

/-- `VocabVerbatimTermMapper._create_index` (lines 59–81): fold all rows
(concatenated over all input files, in processing order) into the index,
keyed by the normalized term. -/
def create_index (lem : String → String) (rows : List TermRow) : VIndex :=
  rows.foldl (indexStep lem) []

/-- `VocabVerbatimTermMapper.map_term` (lines 90–107): normalize the
query, look it up, and return the bucket members (empty list on a
miss). -/
def vocab_map_term (lem : String → String) (idx : VIndex) (source_term : String) : List VConcept :=
  match lookupIdx idx (normalize_term lem source_term) with
  | none => []
  | some b => bucketMembers b

/-- The member list of the bucket stored at a key (empty if absent). -/
def membersAt (idx : VIndex) (k : String) : List VConcept :=
  match lookupIdx idx k with
  | none => []
  | some b => bucketMembers b

/-- Characterization of lookup after an insert-or-update. -/
theorem lookupIdx_insertRow (idx : VIndex) (k : String) (c : VConcept) (q : String) :
    lookupIdx (insertRow idx k c) q
      = if q = k then
          some (match lookupIdx idx k with
                | none => Bucket.one c
                | some b => updateBucket b c)
        else lookupIdx idx q := by
  induction idx with
  | nil =>
    by_cases hq : q = k
    · subst hq; simp [insertRow, lookupIdx]
    · simp [insertRow, lookupIdx, hq, Ne.symm hq]
  | cons e rest ih =>
    obtain ⟨k2, b⟩ := e
    by_cases h2 : k2 = k
    · subst h2
      by_cases hq : q = k2
      · subst hq; simp [insertRow, lookupIdx]
      · simp [insertRow, lookupIdx, hq, Ne.symm hq]
    · by_cases hq : q = k2
      · subst hq
        have : ¬ q = k := fun h => h2 (h ▸ rfl)
        simp [insertRow, lookupIdx, h2, this]
      · simp [insertRow, lookupIdx, h2, Ne.symm hq, ih]

/-- `updateBucket` preserves distinctness of stored concept ids. -/
theorem updateBucket_nodup (b : Bucket) (c : VConcept)
    (h : ((bucketMembers b).map Prod.fst).Nodup) :
    ((bucketMembers (updateBucket b c)).map Prod.fst).Nodup := by
  cases b with
  | one e =>
    by_cases hc : c.1 = e.1
    · simp [updateBucket, hc, bucketMembers]
    · simp [updateBucket, hc, bucketMembers, Ne.symm hc]
  | many cs =>
    by_cases hc : c.1 ∈ cs.map Prod.fst
    · simpa [updateBucket, hc, bucketMembers] using h
    · simp only [updateBucket]
      rw [if_neg hc]
      simp only [bucketMembers, List.map_append, List.map_cons, List.map_nil]
      simp only [bucketMembers] at h
      refine List.Nodup.append h (List.nodup_singleton _) ?_
      intro x hx hx2
      simp only [List.mem_singleton] at hx2
      subst hx2
      exact hc hx

/-- C7: in the index built by `_create_index`, no two concepts stored in
the same normalized-key bucket share a concept_id. -/
theorem index_bucket_ids_nodup (lem : String → String) (rows : List TermRow) (k : String)
    (b : Bucket) (h : lookupIdx (create_index lem rows) k = some b) :
    ((bucketMembers b).map Prod.fst).Nodup := by
  suffices H : ∀ (rows : List TermRow) (idx : VIndex),
      (∀ k b, lookupIdx idx k = some b → ((bucketMembers b).map Prod.fst).Nodup) →
      ∀ k b, lookupIdx (rows.foldl (indexStep lem) idx) k = some b →
        ((bucketMembers b).map Prod.fst).Nodup by
    refine H rows [] ?_ k b h
    intro k2 b2 hb2
    simp [lookupIdx] at hb2
  intro rows
  induction rows with
  | nil => intro idx hidx k2 b2 hb2; exact hidx k2 b2 hb2
  | cons r rest ih =>
    intro idx hidx k2 b2 hb2
    refine ih (indexStep lem idx r) ?_ k2 b2 hb2
    intro k3 b3 hb3
    rw [indexStep, lookupIdx_insertRow] at hb3
    by_cases hq : k3 = normalize_term lem r.term
    · rw [if_pos hq] at hb3
      cases hl : lookupIdx idx (normalize_term lem r.term) with
      | none =>
        rw [hl] at hb3
        injection hb3 with hb3
        subst hb3
        simp [bucketMembers]
      | some b4 =>
        rw [hl] at hb3
        injection hb3 with hb3
        subst hb3
        exact updateBucket_nodup b4 _ (hidx _ b4 hl)
    · rw [if_neg hq] at hb3
      exact hidx k3 b3 hb3

/-- The identity lemmatizer, used for concrete index instantiations. -/
def lemId : String → String := fun s => s

/-- Two rows with the same normalized key and distinct concept ids. -/
def rowsAB : List TermRow := [⟨1, "a", "A"⟩, ⟨2, "a", "B"⟩]

/-- Witness: the index built from `rowsAB` holds a two-element bucket at
key "a" whose concept ids are distinct. -/
theorem index_bucket_ids_nodup_witness :
    lookupIdx (create_index lemId rowsAB) "a" = some (Bucket.many [(1, "A"), (2, "B")]) ∧
    ((bucketMembers (Bucket.many [(1, "A"), (2, "B")])).map Prod.fst).Nodup :=
  ⟨by decide, index_bucket_ids_nodup lemId rowsAB "a" (Bucket.many [(1, "A"), (2, "B")])
    (by decide)⟩

/-- List buckets in the index always hold at least two concepts. -/
theorem many_len_aux (lem : String → String) :
    ∀ (rows : List TermRow) (idx : VIndex),
      (∀ k cs, lookupIdx idx k = some (Bucket.many cs) → 2 ≤ cs.length) →
      ∀ k cs, lookupIdx (rows.foldl (indexStep lem) idx) k = some (Bucket.many cs) →
        2 ≤ cs.length := by
  intro rows
  induction rows with
  | nil => intro idx hidx k cs h; exact hidx k cs h
  | cons r rest ih =>
    intro idx hidx k cs h
    refine ih (indexStep lem idx r) ?_ k cs h
    intro k3 cs3 hb3
    rw [indexStep, lookupIdx_insertRow] at hb3
    by_cases hq : k3 = normalize_term lem r.term
    · rw [if_pos hq] at hb3
      cases hl : lookupIdx idx (normalize_term lem r.term) with
      | none =>
        rw [hl] at hb3
        injection hb3 with hb3
        cases hb3
      | some b4 =>
        rw [hl] at hb3
        injection hb3 with hb3
        cases b4 with
        | one e =>
          by_cases he : (r.concept_id, r.concept_name).1 = e.1
          · simp only [updateBucket] at hb3
            rw [if_pos he] at hb3; cases hb3
          · simp only [updateBucket] at hb3
            rw [if_neg he] at hb3
            injection hb3 with hb3
            rw [← hb3]
            simp
        | many cs4 =>
          by_cases hm : (r.concept_id, r.concept_name).1 ∈ cs4.map Prod.fst
          · simp only [updateBucket] at hb3
            rw [if_pos hm] at hb3
            injection hb3 with hb3
            rw [← hb3]
            exact hidx _ cs4 hl
          · simp only [updateBucket] at hb3
            rw [if_neg hm] at hb3
            injection hb3 with hb3
            rw [← hb3]
            calc 2 ≤ cs4.length := hidx _ cs4 hl
              _ ≤ (cs4 ++ [(r.concept_id, r.concept_name)]).length := by simp
    · rw [if_neg hq] at hb3
      exact hidx k3 cs3 hb3

/-- C9: a bucket stored in the verbatim index is either a single concept
pair or a list of at least two pairs (a stored one-element list never
occurs), and `VocabVerbatimTermMapper.map_term` returns exactly the
bucket members as a (possibly empty) list — the scalar bucket is wrapped
into a singleton list. -/
theorem index_bucket_shape (lem : String → String) (rows : List TermRow) (q k : String)
    (cs : List VConcept) :
    (lookupIdx (create_index lem rows) k = some (Bucket.many cs) → 2 ≤ cs.length) ∧
    vocab_map_term lem (create_index lem rows) q
      = membersAt (create_index lem rows) (normalize_term lem q) := by
  constructor
  · intro h
    refine many_len_aux lem rows [] ?_ k cs h
    intro k2 cs2 h2
    simp [lookupIdx] at h2
  · rfl

/-- Witness: on the two-row index the list bucket has length two, and
the bucket shape theorem applies at a concrete key. -/
theorem index_bucket_shape_witness :
    2 ≤ ([((1 : Int), "A"), (2, "B")] : List VConcept).length ∧
    vocab_map_term lemId (create_index lemId rowsAB) "a"
      = membersAt (create_index lemId rowsAB) (normalize_term lemId "a") :=
  ⟨(index_bucket_shape lemId rowsAB "a" "a" [(1, "A"), (2, "B")]).1 (by decide),
   (index_bucket_shape lemId rowsAB "a" "a" [(1, "A"), (2, "B")]).2⟩

/-- Membership in an updated bucket: the old members, plus the new
concept exactly when its concept_id was not yet present. -/
theorem mem_updateBucket (b : Bucket) (c x : VConcept) :
    x ∈ bucketMembers (updateBucket b c) ↔
      x ∈ bucketMembers b ∨ (x = c ∧ c.1 ∉ (bucketMembers b).map Prod.fst) := by
  cases b with
  | one e =>
    by_cases hc : c.1 = e.1
    · simp [updateBucket, hc, bucketMembers]
    · simp [updateBucket, hc, bucketMembers]
  | many cs =>
    by_cases hc : c.1 ∈ cs.map Prod.fst
    · simp [updateBucket, hc, bucketMembers]
    · simp only [updateBucket]
      rw [if_neg hc]
      simp [bucketMembers, hc]

/-- Provenance/dedup-aware membership in the index built by folding rows
onto an accumulator: a pair is a member iff it was already a member or
some remaining row carries it, provided concept_name is a function of
(normalized key, concept_id) across the accumulated and remaining rows. -/
theorem mem_membersAt_foldl (lem : String → String) (all : List TermRow)
    (hfun : ∀ r ∈ all, ∀ s ∈ all, normalize_term lem r.term = normalize_term lem s.term →
      r.concept_id = s.concept_id → r.concept_name = s.concept_name) :
    ∀ (rows seen : List TermRow) (idx : VIndex),
      (∀ r, r ∈ seen ∨ r ∈ rows → r ∈ all) →
      (∀ k x, x ∈ membersAt idx k →
        ∃ r ∈ seen, normalize_term lem r.term = k ∧ (r.concept_id, r.concept_name) = x) →
      ∀ k x, x ∈ membersAt (rows.foldl (indexStep lem) idx) k ↔
        (x ∈ membersAt idx k ∨
          ∃ r ∈ rows, normalize_term lem r.term = k ∧ (r.concept_id, r.concept_name) = x) := by
  intro rows
  induction rows with
  | nil =>
    intro seen idx _ _ k x
    simp
  | cons r rest ih =>
    intro seen idx hsub hprov k x
    have hother : ∀ k2, ¬ k2 = normalize_term lem r.term →
        membersAt (indexStep lem idx r) k2 = membersAt idx k2 := by
      intro k2 hk2
      simp only [membersAt, indexStep, lookupIdx_insertRow, if_neg hk2]
    -- the one-step membership change
    have hstep : ∀ k2 x2, x2 ∈ membersAt (indexStep lem idx r) k2 ↔
        (x2 ∈ membersAt idx k2 ∨
          (normalize_term lem r.term = k2 ∧ (r.concept_id, r.concept_name) = x2)) := by
      intro k2 x2
      by_cases hk2 : k2 = normalize_term lem r.term
      · subst hk2
        cases hl : lookupIdx idx (normalize_term lem r.term) with
        | none =>
          have hm : membersAt (indexStep lem idx r) (normalize_term lem r.term)
              = [(r.concept_id, r.concept_name)] := by
            simp [membersAt, indexStep, lookupIdx_insertRow, hl, bucketMembers]
          rw [hm]
          simp [membersAt, hl, eq_comm]
        | some b =>
          have hm : membersAt (indexStep lem idx r) (normalize_term lem r.term)
              = bucketMembers (updateBucket b (r.concept_id, r.concept_name)) := by
            simp [membersAt, indexStep, lookupIdx_insertRow, hl]
          rw [hm, mem_updateBucket]
          simp only [membersAt, hl, true_and]
          constructor
          · rintro (h | ⟨h, -⟩)
            · exact Or.inl h
            · exact Or.inr h.symm
          · rintro (h | h)
            · exact Or.inl h
            · -- h : (r.concept_id, r.concept_name) = x2
              by_cases hin :
                  (r.concept_id, r.concept_name).1 ∈ (bucketMembers b).map Prod.fst
              · rcases List.mem_map.mp hin with ⟨y, hy, hyid⟩
                rcases hprov (normalize_term lem r.term) y
                    (by simp [membersAt, hl, hy]) with ⟨r2, hr2, hr2k, hr2y⟩
                have hr2all : r2 ∈ all := hsub r2 (Or.inl hr2)
                have hrall : r ∈ all := hsub r (Or.inr (by simp))
                have hid : r2.concept_id = r.concept_id := by
                  have hy1 : y.1 = r.concept_id := hyid
                  rw [← hr2y] at hy1
                  exact hy1
                have hname : r2.concept_name = r.concept_name :=
                  hfun r2 hr2all r hrall (by rw [hr2k]) hid
                have hy2 : y = (r.concept_id, r.concept_name) := by
                  rw [← hr2y, hid, hname]
                rw [← h, ← hy2]
                exact Or.inl hy
              · exact Or.inr ⟨h.symm, hin⟩
      · rw [hother k2 hk2]
        constructor
        · exact Or.inl
        · rintro (h | ⟨hk, -⟩)
          · exact h
          · exact absurd hk.symm hk2
    -- apply the induction hypothesis after the step
    have hsub2 : ∀ r2, r2 ∈ seen ++ [r] ∨ r2 ∈ rest → r2 ∈ all := by
      intro r2 h2
      rcases h2 with h2 | h2
      · rcases List.mem_append.mp h2 with h3 | h3
        · exact hsub r2 (Or.inl h3)
        · rw [List.mem_singleton.mp h3]
          exact hsub r (Or.inr (by simp))
      · exact hsub r2 (Or.inr (List.mem_cons_of_mem _ h2))
    have hprov2 : ∀ k2 x2, x2 ∈ membersAt (indexStep lem idx r) k2 →
        ∃ r2 ∈ seen ++ [r], normalize_term lem r2.term = k2 ∧
          (r2.concept_id, r2.concept_name) = x2 := by
      intro k2 x2 h2
      rcases (hstep k2 x2).mp h2 with h3 | ⟨h3, h4⟩
      · rcases hprov k2 x2 h3 with ⟨r2, hr2, hk, hx⟩
        exact ⟨r2, List.mem_append_left _ hr2, hk, hx⟩
      · exact ⟨r, List.mem_append_right _ (by simp), h3, h4⟩
    rw [List.foldl_cons, ih (seen ++ [r]) (indexStep lem idx r) hsub2 hprov2 k x,
      hstep k x]
    constructor
    · rintro ((h | ⟨hk, hx⟩) | ⟨r2, hr2, hk, hx⟩)
      · exact Or.inl h
      · exact Or.inr ⟨r, by simp, hk, hx⟩
      · exact Or.inr ⟨r2, List.mem_cons_of_mem _ hr2, hk, hx⟩
    · rintro (h | ⟨r2, hr2, hk, hx⟩)
      · exact Or.inl (Or.inl h)
      · rcases List.mem_cons.mp hr2 with h3 | h3
        · subst h3
          exact Or.inl (Or.inr ⟨hk, hx⟩)
        · exact Or.inr ⟨r2, h3, hk, hx⟩

/-- Membership in a bucket of the built index is existence of a row with
that key and pair, when concept_name is a function of (key, concept_id)
across the rows. -/
theorem mem_create_index (lem : String → String) (rows : List TermRow)
    (hfun : ∀ r ∈ rows, ∀ s ∈ rows, normalize_term lem r.term = normalize_term lem s.term →
      r.concept_id = s.concept_id → r.concept_name = s.concept_name)
    (k : String) (x : VConcept) :
    x ∈ membersAt (create_index lem rows) k ↔
      ∃ r ∈ rows, normalize_term lem r.term = k ∧ (r.concept_id, r.concept_name) = x := by
  have := mem_membersAt_foldl lem rows hfun rows [] []
    (by intro r h; rcases h with h | h; exacts [absurd h (List.not_mem_nil r), h])
    (by intro k2 x2 h2; simp [membersAt, lookupIdx] at h2)
    k x
  rw [create_index, this]
  simp [membersAt, lookupIdx]

/-- Two input orders of the same rows: one concept_id, two different
concept_names under the same normalized key. -/
def rowsDup1 : List TermRow := [⟨1, "a", "A"⟩, ⟨1, "a", "B"⟩]

/-- The reverse order of `rowsDup1`. -/
def rowsDup2 : List TermRow := [⟨1, "a", "B"⟩, ⟨1, "a", "A"⟩]

/-- C8 counterexample: building the index from a permutation of the same
rows does not always yield the same bucket member sets — the first
occurrence of a concept_id wins, so when the same concept_id carries two
different concept_names the stored pair depends on row order. -/
theorem index_merge_comm_counterexample :
    rowsDup1.Perm rowsDup2 ∧
    ((1 : Int), "A") ∈ membersAt (create_index lemId rowsDup1) "a" ∧
    ((1 : Int), "A") ∉ membersAt (create_index lemId rowsDup2) "a" := by
  refine ⟨?_, by decide, by decide⟩
  simp only [rowsDup1, rowsDup2]
  exact List.Perm.swap _ _ _

/-- C8 (amended): if any two rows sharing a normalized key and a
concept_id also share the concept_name, then building the index from any
permutation of the rows yields, for every normalized key, the same set
of bucket members. -/
theorem index_merge_comm (lem : String → String) (rows1 rows2 : List TermRow)
    (hperm : rows1.Perm rows2)
    (hfun : ∀ r ∈ rows1, ∀ s ∈ rows1, normalize_term lem r.term = normalize_term lem s.term →
      r.concept_id = s.concept_id → r.concept_name = s.concept_name)
    (k : String) (x : VConcept) :
    x ∈ membersAt (create_index lem rows1) k ↔ x ∈ membersAt (create_index lem rows2) k := by
  have hfun2 : ∀ r ∈ rows2, ∀ s ∈ rows2,
      normalize_term lem r.term = normalize_term lem s.term →
      r.concept_id = s.concept_id → r.concept_name = s.concept_name := by
    intro r hr s hs
    exact hfun r (hperm.mem_iff.mpr hr) s (hperm.mem_iff.mpr hs)
  rw [mem_create_index lem rows1 hfun k x, mem_create_index lem rows2 hfun2 k x]
  constructor <;> rintro ⟨r, hr, h⟩
  · exact ⟨r, hperm.mem_iff.mp hr, h⟩
  · exact ⟨r, hperm.mem_iff.mpr hr, h⟩

/-- The rows of `rowsAB` in reverse order. -/
def rowsBA : List TermRow := [⟨2, "a", "B"⟩, ⟨1, "a", "A"⟩]

/-- Witness for the amended merge-commutativity theorem on a concrete
permutation with consistent names. -/
theorem index_merge_comm_witness :
    ((1 : Int), "A") ∈ membersAt (create_index lemId rowsAB) "a" ↔
      ((1 : Int), "A") ∈ membersAt (create_index lemId rowsBA) "a" :=
  index_merge_comm lemId rowsAB rowsBA
    (by simp only [rowsAB, rowsBA]; exact List.Perm.swap _ _ _)
    (by decide) "a" ((1 : Int), "A")

/-- A JSON value as produced by Python `json.loads` (numbers restricted
to integers; the responses parsed by the mapper use none other). -/
inductive JVal where
  | null
  | bool (b : Bool)
  | num (n : Int)
  | str (s : String)
  | arr (elems : List JVal)
  | obj (fields : List (String × JVal))

/-- JSON inter-token whitespace. -/
def jsonWsDrop (l : List Char) : List Char :=
  l.dropWhile (fun c => c = ' ' || c = '\t' || c = '\n' || c = '\r')

/-- JSON string escapes (the `\uXXXX` form is not modelled; none of the
analysed responses use it). -/
def escChar (e : Char) : Option Char :=
  if e = '"' then some '"'
  else if e = '\\' then some '\\'
  else if e = '/' then some '/'
  else if e = 'n' then some '\n'
  else if e = 't' then some '\t'
  else if e = 'r' then some '\r'
  else if e = 'b' then some (Char.ofNat 8)
  else if e = 'f' then some (Char.ofNat 12)
  else none

/-- Parse the body of a JSON string after the opening quote; returns the
characters and the remainder after the closing quote. -/
def parseJStrChars : List Char → Except String (List Char × List Char)
  | [] => Except.error "json: unterminated string"
  | c :: rest =>
    if c = '"' then Except.ok ([], rest)
    else if c = '\\' then
      match rest with
      | [] => Except.error "json: unterminated escape"
      | e :: rest2 =>
        match escChar e with
        | some ec =>
          match parseJStrChars rest2 with
          | Except.ok (s, r) => Except.ok (ec :: s, r)
          | Except.error m => Except.error m
        | none => Except.error "json: unsupported escape"
    else if c.toNat < 32 then Except.error "json: control character in string"
    else
      match parseJStrChars rest with
      | Except.ok (s, r) => Except.ok (c :: s, r)
      | Except.error m => Except.error m

/-- Decimal value of a digit run. -/
def digitsVal (ds : List Char) : Nat :=
  ds.foldl (fun a c => a * 10 + (c.toNat - 48)) 0

/-- Parse a JSON integer (floats are rejected by the model; the mapper
only ever coerces concept ids, which are integers). -/
def parseJNum (l : List Char) : Except String (JVal × List Char) :=
  let negl : Bool × List Char :=
    match l with
    | c :: rest => if c = '-' then (true, rest) else (false, l)
    | [] => (false, l)
  let ds := negl.2.takeWhile Char.isDigit
  let rest := negl.2.dropWhile Char.isDigit
  if ds = [] then Except.error "json: invalid number"
  else if 1 < ds.length ∧ ds.headD '0' = '0' then Except.error "json: leading zero"
  else
    match rest with
    | c :: _ =>
      if c = '.' ∨ c = 'e' ∨ c = 'E' then Except.error "json: non-integer number not modelled"
      else Except.ok
        (JVal.num (if negl.1 then -(digitsVal ds : Int) else (digitsVal ds : Int)), rest)
    | [] => Except.ok
        (JVal.num (if negl.1 then -(digitsVal ds : Int) else (digitsVal ds : Int)), rest)

mutual

/-- Recursive-descent JSON value parse with structural fuel. -/
def parseJVal : Nat → List Char → Except String (JVal × List Char)
  | 0, _ => Except.error "json: depth exhausted"
  | Nat.succ fu, l =>
    match jsonWsDrop l with
    | [] => Except.error "json: unexpected end"
    | c :: rest =>
      if c = lbrace then parseJObj fu rest
      else if c = '[' then parseJArr fu rest
      else if c = '"' then
        match parseJStrChars rest with
        | Except.ok (s, r) => Except.ok (JVal.str (String.mk s), r)
        | Except.error m => Except.error m
      else if c = 't' then
        if "rue".data.isPrefixOf rest then Except.ok (JVal.bool true, rest.drop 3)
        else Except.error "json: invalid literal"
      else if c = 'f' then
        if "alse".data.isPrefixOf rest then Except.ok (JVal.bool false, rest.drop 4)
        else Except.error "json: invalid literal"
      else if c = 'n' then
        if "ull".data.isPrefixOf rest then Except.ok (JVal.null, rest.drop 3)
        else Except.error "json: invalid literal"
      else parseJNum (c :: rest)

/-- Parse object fields after the opening brace when the object is
non-empty. -/
def parseJObjFields : Nat → List Char → Except String (List (String × JVal) × List Char)
  | 0, _ => Except.error "json: depth exhausted"
  | Nat.succ fu, l =>
    match jsonWsDrop l with
    | c :: rest =>
      if c = '"' then
        match parseJStrChars rest with
        | Except.ok (ks, r1) =>
          match jsonWsDrop r1 with
          | ':' :: r2 =>
            match parseJVal fu r2 with
            | Except.ok (v, r3) =>
              match jsonWsDrop r3 with
              | ',' :: r4 =>
                match parseJObjFields fu r4 with
                | Except.ok (fs, r5) => Except.ok ((String.mk ks, v) :: fs, r5)
                | Except.error m => Except.error m
              | c2 :: r4 =>
                if c2 = rbrace then Except.ok ([(String.mk ks, v)], r4)
                else Except.error "json: expected comma or closing brace"
              | [] => Except.error "json: unterminated object"
            | Except.error m => Except.error m
          | _ => Except.error "json: expected colon"
        | Except.error m => Except.error m
      else Except.error "json: expected string key"
    | [] => Except.error "json: unterminated object"

/-- Parse an object after the opening brace. -/
def parseJObj : Nat → List Char → Except String (JVal × List Char)
  | 0, _ => Except.error "json: depth exhausted"
  | Nat.succ fu, l =>
    match jsonWsDrop l with
    | c :: rest =>
      if c = rbrace then Except.ok (JVal.obj [], rest)
      else
        match parseJObjFields fu (c :: rest) with
        | Except.ok (fs, r) => Except.ok (JVal.obj fs, r)
        | Except.error m => Except.error m
    | [] => Except.error "json: unterminated object"

/-- Parse array elements when the array is non-empty. -/
def parseJArrElems : Nat → List Char → Except String (List JVal × List Char)
  | 0, _ => Except.error "json: depth exhausted"
  | Nat.succ fu, l =>
    match parseJVal fu l with
    | Except.ok (v, r1) =>
      match jsonWsDrop r1 with
      | ',' :: r2 =>
        match parseJArrElems fu r2 with
        | Except.ok (vs, r3) => Except.ok (v :: vs, r3)
        | Except.error m => Except.error m
      | c :: r2 =>
        if c = ']' then Except.ok ([v], r2)
        else Except.error "json: expected comma or closing bracket"
      | [] => Except.error "json: unterminated array"
    | Except.error m => Except.error m

/-- Parse an array after the opening bracket. -/
def parseJArr : Nat → List Char → Except String (JVal × List Char)
  | 0, _ => Except.error "json: depth exhausted"
  | Nat.succ fu, l =>
    match jsonWsDrop l with
    | c :: rest =>
      if c = ']' then Except.ok (JVal.arr [], rest)
      else
        match parseJArrElems fu (c :: rest) with
        | Except.ok (vs, r) => Except.ok (JVal.arr vs, r)
        | Except.error m => Except.error m
    | [] => Except.error "json: unterminated array"

end

/-- Python `json.loads`: parse one value and require only whitespace to
follow. -/
def jsonLoads (s : String) : Except String JVal :=
  match parseJVal (s.length + 1) s.data with
  | Except.ok (v, rest) =>
    if jsonWsDrop rest = [] then Except.ok v else Except.error "json: extra data"
  | Except.error m => Except.error m

/-- Last-wins dictionary lookup (Python dicts built by `json.loads` keep
the last duplicate key). -/
def jsonGet (fields : List (String × JVal)) (k : String) : Option JVal :=
  ((fields.filter (fun kv => kv.1 = k)).getLast?).map Prod.snd

/-- Python truthiness of a JSON value (`if not data["match_found"]`). -/
def jsonTruthy : JVal → Bool
  | JVal.null => false
  | JVal.bool b => b
  | JVal.num n => n ≠ 0
  | JVal.str s => s ≠ ""
  | JVal.arr xs => !xs.isEmpty
  | JVal.obj fs => !fs.isEmpty

/-- Python `int(string)`: strip whitespace, optional sign, decimal
digits. -/
def pyIntOfString (s : String) : Option Int :=
  let l := ((s.data.dropWhile isPySpace).reverse.dropWhile isPySpace).reverse
  let negl : Bool × List Char :=
    match l with
    | c :: rest =>
      if c = '-' then (true, rest) else if c = '+' then (false, rest) else (false, l)
    | [] => (false, l)
  if negl.2 ≠ [] ∧ negl.2.all Char.isDigit then
    some (if negl.1 then -(digitsVal negl.2 : Int) else (digitsVal negl.2 : Int))
  else none

/-- `int(data["concept_id"])` on a JSON value (llm_mapper.py line 187):
a numeric value is returned, a bool coerces to 0/1, a numeric string is
parsed (ValueError otherwise, re-raised by the source), and any other
value raises a TypeError that the source does not catch. -/
def pyIntOfJVal : JVal → Except String Int
  | JVal.num n => Except.ok n
  | JVal.bool b => Except.ok (if b then 1 else 0)
  | JVal.str s =>
    match pyIntOfString s with
    | some n => Except.ok n
    | none => Except.error "ValueError: match value is not a valid integer"
  | _ => Except.error "TypeError: int() argument"

/-- Split a response into lines at newline characters, as the MULTILINE
anchor `^` of the match-line regex does. -/
def splitNl : List Char → List (List Char)
  | [] => [[]]
  | c :: rest =>
    if c = '\n' then [] :: splitNl rest
    else
      match splitNl rest with
      | t :: ts => (c :: t) :: ts
      | [] => [[c]]

/-- Case-insensitive prefix test (ASCII, as re.IGNORECASE behaves on the
patterns involved). -/
def ciPrefAt (pat l : List Char) : Bool :=
  (l.take pat.length).map Char.toLower = pat

/-- Does a line match `^#* ?Match ?:` (llm_mapper.py line 149)?  The
trailing `.*` of the regex always matches the rest of the line. -/
def isMatchLine (l : List Char) : Bool :=
  let l1 := l.dropWhile (fun c => c = '#')
  let l2 := match l1 with
    | ' ' :: r => r
    | _ => l1
  if ciPrefAt "match".data l2 then
    match l2.drop 5 with
    | ' ' :: ':' :: _ => true
    | ':' :: _ => true
    | _ => false
  else false

/-- Substring containment. -/
def containsSub (pat : List Char) : List Char → Bool
  | [] => pat.isEmpty
  | c :: rest => pat.isPrefixOf (c :: rest) || containsSub pat rest

/-- The no-match test `re.search("no[ _]match|-1", line, IGNORECASE)`
(llm_mapper.py line 152). -/
def containsNoMatch (l : List Char) : Bool :=
  containsSub "no match".data (l.map Char.toLower) ||
  containsSub "no_match".data (l.map Char.toLower) ||
  containsSub "-1".data l

/-- First maximal run of decimal digits (`re.findall(r"\d+", line)[0]`,
llm_mapper.py line 156). -/
def firstDigitRun : List Char → Option (List Char)
  | [] => none
  | c :: rest =>
    if c.isDigit then some (c :: rest.takeWhile Char.isDigit) else firstDigitRun rest

/-- Remainder after the first case-insensitive occurrence of `pat`. -/
def findAfterCI (pat : List Char) : List Char → Option (List Char)
  | [] => none
  | c :: rest =>
    if ciPrefAt pat (c :: rest) then some ((c :: rest).drop pat.length)
    else findAfterCI pat rest

/-- Python `str.strip()`. -/
def pyStrip (l : List Char) : List Char :=
  ((l.dropWhile isPySpace).reverse.dropWhile isPySpace).reverse

/-- The rationale extraction
`re.search(r"Justification[:\-]?(.*)", response, DOTALL | IGNORECASE)`
followed by `.strip().replace("\n", " ").replace("\\n", "\n")`
(llm_mapper.py lines 169–173). -/
def extractRationale (resp : List Char) : List Char :=
  match findAfterCI "justification".data resp with
  | none => []
  | some rem =>
    let rem2 := match rem with
      | ':' :: r => r
      | '-' :: r => r
      | _ => rem
    pyReplace "\\n".data "\n".data (pyReplace "\n".data " ".data (pyStrip rem2))

/-- The greedy JSON span `re.search(r"{.*}", response, DOTALL)`: from
the first opening brace to the last closing brace after it
(llm_mapper.py line 178). -/
def extractBraceSpan (resp : List Char) : Option (List Char) :=
  let aft := resp.dropWhile (fun c => c ≠ lbrace)
  match aft with
  | [] => none
  | _ :: _ =>
    let rev := aft.reverse.dropWhile (fun c => c ≠ rbrace)
    if rev = [] then none else some rev.reverse

/-- Reserved cache sentinel (llm_mapper.py lines 101 and 115). -/
def sentinel : String := "*Content filter triggered*"

/-- The possible non-exception outcomes of `LlmMapper.map_term`: a
decision triple, the content-filter triple `(None, None, None)`, or the
undocumented bare `None` produced when the final response matches
neither grammar (the function falls off its end). -/
inductive MapOutcome where
  | found (concept_id : Int) (concept_name : String) (rationale : JVal)
  | filtered
  | pyNone

/-- Final-response processing of `LlmMapper.map_term` (lines 147–194):
strip bold markers, look for the last `Match:` line (legacy grammar) and
otherwise for the first JSON object span; exceptions raised by the
source are modelled as `Except.error`. -/
def parseFinalResponse (target_concepts : List VConcept) (resp0 : String) :
    Except String MapOutcome :=
  let resp := pyReplace "**".data [] resp0.data
  let matchLines := (splitNl resp).filter isMatchLine
  match matchLines.getLast? with
  | some lastLine =>
    if containsNoMatch lastLine then
      Except.ok (MapOutcome.found (-1) "no_match" (JVal.str (String.mk (extractRationale resp))))
    else
      match firstDigitRun lastLine with
      | none => Except.error "ValueError: no numeric match found in response"
      | some ds =>
        match target_concepts.find? (fun c => c.1 = (digitsVal ds : Int)) with
        | none => Except.error "ValueError: match not found in search results"
        | some c =>
          Except.ok (MapOutcome.found (digitsVal ds : Int) c.2
            (JVal.str (String.mk (extractRationale resp))))
  | none =>
    match extractBraceSpan resp with
    | none => Except.ok MapOutcome.pyNone
    | some span =>
      match jsonLoads (String.mk span) with
      | Except.error m => Except.error m
      | Except.ok (JVal.obj fields) =>
        match jsonGet fields "justification" with
        | none => Except.error "KeyError: justification"
        | some just =>
          match jsonGet fields "match_found" with
          | none => Except.error "KeyError: match_found"
          | some mf =>
            if jsonTruthy mf = false then Except.ok (MapOutcome.found (-1) "no_match" just)
            else
              match jsonGet fields "concept_id" with
              | none => Except.error "KeyError: concept_id"
              | some cidv =>
                match pyIntOfJVal cidv with
                | Except.error m => Except.error m
                | Except.ok v =>
                  match target_concepts.find? (fun c => c.1 = v) with
                  | none => Except.error "ValueError: match not found in search results"
                  | some c => Except.ok (MapOutcome.found v c.2 just)
      | Except.ok _ => Except.error "TypeError: response JSON is not an object"

/-- One external LLM response with its usage cost
(`get_llm_response` returns `{content, usage: {total_cost_usd}}`; the
cost is modelled as an exact rational). -/
structure LlmResp where
  content : String
  total_cost_usd : Rat

/-- The external collaborators of `LlmMapper.map_term`: the LLM provider
(`get_llm_response(prompt, system_prompt)`) and the step-0 target-detail
re-insertion transformation (lines 119–139, a json/pandas round trip
over external libraries, applied only when the configuration flag is
set). -/
structure LlmEnv where
  llm : String → String → LlmResp
  reinsert : String → String

/-- The configuration consumed by the prompting loop. -/
structure LlmCfg where
  system_prompts : List String
  re_insert_target_details : Bool

/-- The mutable state of one `map_term` call: the response cache for the
fixed source_id (step ↦ contents of `response_{source_id}_s{step+1}.txt`),
the number of external LLM calls made, and the cost added to
`self._cost` (read back by `get_total_cost`). -/
structure StepState where
  cache : Nat → Option String
  calls : Nat
  cost : Rat

/-- Writing one cache file. -/
def cacheSet (f : Nat → Option String) (i : Nat) (v : String) : Nat → Option String :=
  fun j => if j = i then some v else f j

/-- How the prompting loop ends: content-filter abort, or the final
response text handed to the grammar parser. -/
inductive LoopOut where
  | filtered
  | finalResp (response : String)

/-- The step-0 prompt (llm_mapper.py line 108). -/
def mkPrompt (source_term ctxJson : String) : String :=
  "Source term: " ++ source_term ++ "\n\nCandidate target concepts:\n" ++ ctxJson

/-- The response generated at step `i` (llm_mapper.py lines 105–110):
at step 0 the prompt is rebuilt from the source term and the serialized
candidate context, later steps use the carried prompt. -/
def genResp (env : LlmEnv) (t x p : String) (i : Nat) (sys : String) : LlmResp :=
  env.llm (if i = 0 then mkPrompt t x else p) sys

/-- The text written to the cache file (llm_mapper.py lines 119–141):
the raw content, or the re-inserted version at step 0 when configured. -/
def writtenOf (env : LlmEnv) (cfg : LlmCfg) (i : Nat) (content : String) : String :=
  if i = 0 && cfg.re_insert_target_details then env.reinsert content else content

/-- The prompting loop of `LlmMapper.map_term` (lines 93–145) over the
remaining system prompts, with `i` the current step index and `p` the
carried prompt.  A cached response is loaded verbatim (returning the
filtered triple if it is the sentinel); otherwise the LLM is called:
empty content writes the sentinel and aborts, other content is added to
the cost, possibly rewritten at step 0, written to the cache, and passed
on as the next prompt. -/
def runSteps (env : LlmEnv) (cfg : LlmCfg) (t x : String) :
    List String → Nat → String → StepState → LoopOut × StepState
  | [], _, _, st => (LoopOut.finalResp "", st)
  | sys :: restSys, i, p, st =>
    match st.cache i with
    | some response =>
      if response = sentinel then (LoopOut.filtered, st)
      else if restSys = [] then (LoopOut.finalResp response, st)
      else runSteps env cfg t x restSys (i + 1) response st
    | none =>
      if (genResp env t x p i sys).content = "" then
        (LoopOut.filtered, ⟨cacheSet st.cache i sentinel, st.calls + 1, st.cost⟩)
      else
        if restSys = [] then
          (LoopOut.finalResp (writtenOf env cfg i (genResp env t x p i sys).content),
           ⟨cacheSet st.cache i (writtenOf env cfg i (genResp env t x p i sys).content),
            st.calls + 1, st.cost + (genResp env t x p i sys).total_cost_usd⟩)
        else
          runSteps env cfg t x restSys (i + 1)
            (writtenOf env cfg i (genResp env t x p i sys).content)
            ⟨cacheSet st.cache i (writtenOf env cfg i (genResp env t x p i sys).content),
             st.calls + 1, st.cost + (genResp env t x p i sys).total_cost_usd⟩

/-- The observable effects of one `LlmMapper.map_term` call: the result
(or raised exception), the cache left behind, the number of external
LLM calls, and the cost added to the accumulator that `get_total_cost`
reports. -/
structure MapRet where
  result : Except String MapOutcome
  cache : Nat → Option String
  calls : Nat
  costAdded : Rat

/-- `LlmMapper.map_term` (llm_mapper.py lines 24–194) for a fixed
source_id: run the prompting loop over the configured system prompts and
parse the final response.  With an empty prompt list the loop never
binds `response` and line 148 raises a NameError. -/
def llm_map_term (env : LlmEnv) (cfg : LlmCfg) (source_term ctxJson : String)
    (target_concepts : List VConcept) (cache0 : Nat → Option String) : MapRet :=
  match cfg.system_prompts with
  | [] => ⟨Except.error "NameError: name response is not defined", cache0, 0, 0⟩
  | sys :: restSys =>
    match runSteps env cfg source_term ctxJson (sys :: restSys) 0 "" ⟨cache0, 0, 0⟩ with
    | (LoopOut.filtered, st) => ⟨Except.ok MapOutcome.filtered, st.cache, st.calls, st.cost⟩
    | (LoopOut.finalResp r, st) =>
      ⟨parseFinalResponse target_concepts r, st.cache, st.calls, st.cost⟩

/-- C2: the final-response parser of `LlmMapper.map_term` handles both
grammars: a `Match: 1002` line with a Justification yields the candidate
name for 1002 and the rationale; `Match: no_match` yields the no-match
triple with an empty rationale; and a JSON response with
`match_found: false` and a justification yields the no-match triple with
that justification. -/
theorem final_response_grammar_examples :
    parseFinalResponse [(1002, "Myocardial infarction"), (1003, "Liver disease")]
        "Match: 1002\nJustification: because exact synonym"
      = Except.ok (MapOutcome.found 1002 "Myocardial infarction"
          (JVal.str "because exact synonym")) ∧
    parseFinalResponse [(1002, "Myocardial infarction")] "Match: no_match"
      = Except.ok (MapOutcome.found (-1) "no_match" (JVal.str "")) ∧
    parseFinalResponse [(1002, "Myocardial infarction")]
        "\x7b\"match_found\": false, \"justification\": \"too vague\"\x7d"
      = Except.ok (MapOutcome.found (-1) "no_match" (JVal.str "too vague")) :=
  ⟨rfl, rfl, rfl⟩

/-- C1 evaluation: of the three final-response format-error situations,
a `Match:` line without digits raises, a chosen concept_id absent from
the candidates raises, but a response with neither a `Match:` line nor
any JSON object span does NOT raise — `map_term` falls off the end of
the function and silently returns a bare Python `None` (modelled as
`MapOutcome.pyNone`), contradicting its declared
`Tuple[int | None, str | None, str | None]` return contract. -/
theorem format_error_paths :
    parseFinalResponse [(1002, "X")] "Match: abc"
      = Except.error "ValueError: no numeric match found in response" ∧
    parseFinalResponse [(1002, "X")] "Match: 555"
      = Except.error "ValueError: match not found in search results" ∧
    parseFinalResponse [(1002, "X")] "I cannot determine a suitable concept."
      = Except.ok MapOutcome.pyNone :=
  ⟨rfl, rfl, rfl⟩

/-- C10: when the external LLM returns empty content at an uncached step,
the loop writes the sentinel and returns the filtered outcome BEFORE
adding that step's usage cost: the call counter advances but the cost
accumulator reported by `get_total_cost` keeps exactly its prior value. -/
theorem filtered_step_adds_no_cost (env : LlmEnv) (cfg : LlmCfg) (t x sys : String)
    (restSys : List String) (i : Nat) (p : String) (c : Nat → Option String)
    (kc : Nat) (m : Rat) (hc : c i = none)
    (hempty : ∀ p2 s2, (env.llm p2 s2).content = "") :
    runSteps env cfg t x (sys :: restSys) i p ⟨c, kc, m⟩
      = (LoopOut.filtered, ⟨cacheSet c i sentinel, kc + 1, m⟩) := by
  simp [runSteps, hc, genResp, hempty]

/-- A provider whose responses are always empty (content filter), with a
nonzero would-be cost. -/
def envEmpty : LlmEnv := ⟨fun _ _ => ⟨"", 5⟩, fun s => s⟩

/-- A two-step configuration without detail re-insertion. -/
def cfg2 : LlmCfg := ⟨["s1", "s2"], false⟩

/-- A cache holding a step-0 response only. -/
def cache01 : Nat → Option String := fun j => if j = 0 then some "resp0" else none

/-- Witness: at step 1 with prior cost 3, the filtered step leaves the
cost at 3 while writing the sentinel. -/
theorem filtered_step_adds_no_cost_witness :
    runSteps envEmpty cfg2 "term" "ctx" ["s2"] 1 "resp0" ⟨cache01, 1, 3⟩
      = (LoopOut.filtered, ⟨cacheSet cache01 1 sentinel, 2, 3⟩) :=
  filtered_step_adds_no_cost envEmpty cfg2 "term" "ctx" "s2" [] 1 "resp0" cache01 1 3
    rfl (fun _ _ => rfl)

/-- The loop never writes cache entries below its current step index. -/
theorem runSteps_cache_lt (env : LlmEnv) (cfg : LlmCfg) (t x : String) :
    ∀ (sysList : List String) (i : Nat) (p : String) (st : StepState) (j : Nat), j < i →
      ((runSteps env cfg t x sysList i p st).2).cache j = st.cache j := by
  intro sysList
  induction sysList with
  | nil => intro i p st j _; rfl
  | cons sys rest ih =>
    intro i p st j hj
    cases hci : st.cache i with
    | some s =>
      by_cases hs : s = sentinel
      · simp [runSteps, hci, hs]
      · by_cases hr : rest = []
        · subst hr; simp [runSteps, hci, hs]
        · simp only [runSteps, hci]
          rw [if_neg hs, if_neg hr]
          exact ih (i + 1) s st j (by omega)
    | none =>
      by_cases he : (genResp env t x p i sys).content = ""
      · simp only [runSteps, hci]
        rw [if_pos he]
        simp [cacheSet, show j ≠ i from by omega]
      · by_cases hr : rest = []
        · subst hr
          simp only [runSteps, hci]
          rw [if_neg he]
          simp [cacheSet, show j ≠ i from by omega]
        · simp only [runSteps, hci]
          rw [if_neg he, if_neg hr]
          rw [ih (i + 1) _ _ j (by omega)]
          simp [cacheSet, show j ≠ i from by omega]

/-- With an always-empty provider, the loop runs through the cached
steps before the first gap `k` (all non-sentinel), calls the LLM at `k`,
writes the sentinel there and aborts with the filtered outcome and no
cost. -/
theorem runSteps_to_empty (env : LlmEnv) (cfg : LlmCfg) (t x : String)
    (hempty : ∀ p2 s2, (env.llm p2 s2).content = "") :
    ∀ (sysList : List String) (i : Nat) (p : String) (c : Nat → Option String)
      (kc : Nat) (m : Rat) (k : Nat),
      i ≤ k → k < i + sysList.length → c k = none →
      (∀ j, i ≤ j → j < k → ∃ s, c j = some s ∧ s ≠ sentinel) →
      runSteps env cfg t x sysList i p ⟨c, kc, m⟩
        = (LoopOut.filtered, ⟨cacheSet c k sentinel, kc + 1, m⟩) := by
  intro sysList
  induction sysList with
  | nil =>
    intro i p c kc m k hik hk _ _
    simp at hk
    omega
  | cons sys rest ih =>
    intro i p c kc m k hik hk hck hbefore
    by_cases heq : i = k
    · subst heq
      simp [runSteps, hck, genResp, hempty]
    · have hlt : i < k := by omega
      rcases hbefore i (le_refl i) hlt with ⟨s, hcs, hs⟩
      have hrest : rest ≠ [] := by
        intro hr
        subst hr
        simp at hk
        omega
      simp only [runSteps, hcs]
      rw [if_neg hs, if_neg hrest]
      exact ih (i + 1) s c kc m k (by omega) (by simp at hk ⊢; omega) hck
        (fun j h1 h2 => hbefore j (by omega) h2)

/-- Replaying against a cache whose first entries exist and which holds
the sentinel at step `k` returns the filtered outcome without touching
the state at all: no LLM call and no cost. -/
theorem runSteps_replay_filtered (env : LlmEnv) (cfg : LlmCfg) (t x : String) :
    ∀ (sysList : List String) (i : Nat) (p : String) (st : StepState) (k : Nat),
      i ≤ k → k < i + sysList.length → st.cache k = some sentinel →
      (∀ j, i ≤ j → j < k → st.cache j ≠ none) →
      runSteps env cfg t x sysList i p st = (LoopOut.filtered, st) := by
  intro sysList
  induction sysList with
  | nil =>
    intro i p st k hik hk _ _
    simp at hk
    omega
  | cons sys rest ih =>
    intro i p st k hik hk hsent hbefore
    cases hci : st.cache i with
    | none =>
      by_cases heq : i = k
      · subst heq
        rw [hci] at hsent
        cases hsent
      · exact absurd hci (hbefore i (le_refl i) (by omega))
    | some s =>
      by_cases hs : s = sentinel
      · simp [runSteps, hci, hs]
      · have hik2 : i ≠ k := by
          intro heq
          subst heq
          rw [hci] at hsent
          injection hsent with hsent
          exact hs hsent
        have hrest : rest ≠ [] := by
          intro hr
          subst hr
          simp at hk
          omega
        simp only [runSteps, hci]
        rw [if_neg hs, if_neg hrest]
        exact ih (i + 1) s st k (by omega) (by simp at hk ⊢; omega) hsent
          (fun j h1 h2 => hbefore j (by omega) h2)

/-- C4: if the external LLM returns empty content at the first uncached
step `k` (the steps before it being cached non-sentinel responses),
`map_term` writes the sentinel `*Content filter triggered*` to that
step's cache file and returns the filtered triple `(None, None, None)`;
and any subsequent `map_term` call on the resulting cache returns the
filtered triple without making any external LLM call. -/
theorem content_filter_sentinel (env env2 : LlmEnv) (cfg : LlmCfg)
    (t x t2 x2 : String) (targets targets2 : List VConcept)
    (c0 : Nat → Option String) (k : Nat)
    (hk : k < cfg.system_prompts.length)
    (hck : c0 k = none)
    (hbefore : ∀ j, j < k → ∃ s, c0 j = some s ∧ s ≠ sentinel)
    (hempty : ∀ p2 s2, (env.llm p2 s2).content = "") :
    (llm_map_term env cfg t x targets c0).result = Except.ok MapOutcome.filtered ∧
    (llm_map_term env cfg t x targets c0).cache k = some sentinel ∧
    (llm_map_term env2 cfg t2 x2 targets2
        (llm_map_term env cfg t x targets c0).cache).result
      = Except.ok MapOutcome.filtered ∧
    (llm_map_term env2 cfg t2 x2 targets2
        (llm_map_term env cfg t x targets c0).cache).calls = 0 ∧
    (llm_map_term env2 cfg t2 x2 targets2
        (llm_map_term env cfg t x targets c0).cache).costAdded = 0 := by
  cases hcfg : cfg.system_prompts with
  | nil => rw [hcfg] at hk; simp at hk
  | cons sys rest =>
    have hrun := runSteps_to_empty env cfg t x hempty (sys :: rest) 0 "" c0 0 0 k
      (Nat.zero_le k) (by rw [hcfg] at hk; omega) hck
      (fun j _ hj => hbefore j hj)
    have hr1 : llm_map_term env cfg t x targets c0
        = ⟨Except.ok MapOutcome.filtered, cacheSet c0 k sentinel, 1, 0⟩ := by
      simp only [llm_map_term, hcfg, hrun]
    rw [hr1]
    have hcachek : cacheSet c0 k sentinel k = some sentinel := by simp [cacheSet]
    refine ⟨rfl, hcachek, ?_⟩
    have hrun2 := runSteps_replay_filtered env2 cfg t2 x2 (sys :: rest) 0 ""
      ⟨cacheSet c0 k sentinel, 0, 0⟩ k (Nat.zero_le k) (by rw [hcfg] at hk; omega)
      hcachek
      (by
        intro j _ hj
        have hj2 : j ≠ k := by omega
        simp only [cacheSet, if_neg hj2]
        rcases hbefore j hj with ⟨s, hcs, _⟩
        rw [hcs]
        simp)
    have hr2 : llm_map_term env2 cfg t2 x2 targets2 (cacheSet c0 k sentinel)
        = ⟨Except.ok MapOutcome.filtered, cacheSet c0 k sentinel, 0, 0⟩ := by
      simp only [llm_map_term, hcfg, hrun2]
    rw [hr2]
    exact ⟨rfl, rfl, rfl⟩

/-- Witness for the content-filter sentinel scenario at step 1 of a
two-step configuration. -/
theorem content_filter_sentinel_witness :
    (llm_map_term envEmpty cfg2 "term" "ctx" [] cache01).result
      = Except.ok MapOutcome.filtered ∧
    (llm_map_term envEmpty cfg2 "term" "ctx" [] cache01).cache 1 = some sentinel ∧
    (llm_map_term envEmpty cfg2 "t2" "x2" []
        (llm_map_term envEmpty cfg2 "term" "ctx" [] cache01).cache).result
      = Except.ok MapOutcome.filtered ∧
    (llm_map_term envEmpty cfg2 "t2" "x2" []
        (llm_map_term envEmpty cfg2 "term" "ctx" [] cache01).cache).calls = 0 ∧
    (llm_map_term envEmpty cfg2 "t2" "x2" []
        (llm_map_term envEmpty cfg2 "term" "ctx" [] cache01).cache).costAdded = 0 :=
  content_filter_sentinel envEmpty envEmpty cfg2 "term" "ctx" "t2" "x2" [] [] cache01 1
    (by decide)
    rfl
    (by
      intro j hj
      have hj0 : j = 0 := by omega
      subst hj0
      exact ⟨"resp0", rfl, by decide⟩)
    (fun _ _ => rfl)

/-- Cache replay: if a first run of the loop leaves every step of its
range cached, then a second run over the final cache (with any
environment, prompts and counters) reproduces the first run's outcome
while leaving the state untouched — provided no generated (possibly
re-inserted) response text equals the reserved sentinel. -/
theorem runSteps_replay (env1 env2 : LlmEnv) (cfg : LlmCfg) (t x t2 x2 : String)
    (hs1 : ∀ p2 s2, (env1.llm p2 s2).content ≠ sentinel)
    (hs2 : cfg.re_insert_target_details = true → ∀ s2, env1.reinsert s2 ≠ sentinel) :
    ∀ (sysList : List String) (i : Nat) (p1 p2 : String) (st1 : StepState)
      (kc : Nat) (m : Rat),
      (∀ j, i ≤ j → j < i + sysList.length →
        ((runSteps env1 cfg t x sysList i p1 st1).2).cache j ≠ none) →
      runSteps env2 cfg t2 x2 sysList i p2
          ⟨((runSteps env1 cfg t x sysList i p1 st1).2).cache, kc, m⟩
        = ((runSteps env1 cfg t x sysList i p1 st1).1,
           ⟨((runSteps env1 cfg t x sysList i p1 st1).2).cache, kc, m⟩) := by
  intro sysList
  induction sysList with
  | nil =>
    intro i p1 p2 st1 kc m _
    rfl
  | cons sys rest ih =>
    intro i p1 p2 st1 kc m hall
    cases hci : st1.cache i with
    | some s =>
      by_cases hs : s = sentinel
      · have hR : runSteps env1 cfg t x (sys :: rest) i p1 st1 = (LoopOut.filtered, st1) := by
          simp [runSteps, hci, hs]
        rw [hR]
        simp [runSteps, hci, hs]
      · by_cases hrest : rest = []
        · subst hrest
          have hR : runSteps env1 cfg t x [sys] i p1 st1 = (LoopOut.finalResp s, st1) := by
            simp [runSteps, hci, hs]
          rw [hR]
          simp [runSteps, hci, hs]
        · have hR : runSteps env1 cfg t x (sys :: rest) i p1 st1
              = runSteps env1 cfg t x rest (i + 1) s st1 := by
            simp only [runSteps, hci]
            rw [if_neg hs, if_neg hrest]
          rw [hR] at hall ⊢
          have hkey : ((runSteps env1 cfg t x rest (i + 1) s st1).2).cache i = some s := by
            rw [runSteps_cache_lt env1 cfg t x rest (i + 1) s st1 i (by omega)]
            exact hci
          have hih := ih (i + 1) s s st1 kc m
            (fun j h1 h2 => hall j (by omega) (by simp only [List.length_cons]; omega))
          simp only [runSteps, hkey]
          rw [if_neg hs, if_neg hrest]
          exact hih
    | none =>
      by_cases he : (genResp env1 t x p1 i sys).content = ""
      · have hR : runSteps env1 cfg t x (sys :: rest) i p1 st1
            = (LoopOut.filtered, ⟨cacheSet st1.cache i sentinel, st1.calls + 1, st1.cost⟩) := by
          simp only [runSteps, hci]
          rw [if_pos he]
        rw [hR]
        have hcs : cacheSet st1.cache i sentinel i = some sentinel := by simp [cacheSet]
        simp [runSteps, hcs]
      · have hw : writtenOf env1 cfg i (genResp env1 t x p1 i sys).content ≠ sentinel := by
          by_cases hflag : (decide (i = 0) && cfg.re_insert_target_details) = true
          · rw [writtenOf, if_pos hflag]
            exact hs2 (Bool.and_eq_true_iff.mp hflag).2 _
          · rw [writtenOf, if_neg hflag]
            exact hs1 _ _
        by_cases hrest : rest = []
        · subst hrest
          have hR : runSteps env1 cfg t x [sys] i p1 st1
              = (LoopOut.finalResp (writtenOf env1 cfg i (genResp env1 t x p1 i sys).content),
                 ⟨cacheSet st1.cache i (writtenOf env1 cfg i (genResp env1 t x p1 i sys).content),
                  st1.calls + 1, st1.cost + (genResp env1 t x p1 i sys).total_cost_usd⟩) := by
            simp only [runSteps, hci]
            rw [if_neg he]
            rfl
          rw [hR]
          have hcs : cacheSet st1.cache i
              (writtenOf env1 cfg i (genResp env1 t x p1 i sys).content) i
              = some (writtenOf env1 cfg i (genResp env1 t x p1 i sys).content) := by
            simp [cacheSet]
          simp only [runSteps, hcs]
          rw [if_neg hw]
          rfl
        · have hR : runSteps env1 cfg t x (sys :: rest) i p1 st1
              = runSteps env1 cfg t x rest (i + 1)
                  (writtenOf env1 cfg i (genResp env1 t x p1 i sys).content)
                  ⟨cacheSet st1.cache i (writtenOf env1 cfg i (genResp env1 t x p1 i sys).content),
                   st1.calls + 1, st1.cost + (genResp env1 t x p1 i sys).total_cost_usd⟩ := by
            simp only [runSteps, hci]
            rw [if_neg he, if_neg hrest]
          rw [hR] at hall ⊢
          have hkey : ((runSteps env1 cfg t x rest (i + 1)
              (writtenOf env1 cfg i (genResp env1 t x p1 i sys).content)
              ⟨cacheSet st1.cache i (writtenOf env1 cfg i (genResp env1 t x p1 i sys).content),
               st1.calls + 1, st1.cost + (genResp env1 t x p1 i sys).total_cost_usd⟩).2).cache i
              = some (writtenOf env1 cfg i (genResp env1 t x p1 i sys).content) := by
            rw [runSteps_cache_lt env1 cfg t x rest (i + 1) _ _ i (by omega)]
            simp [cacheSet]
          have hih := ih (i + 1) (writtenOf env1 cfg i (genResp env1 t x p1 i sys).content)
            (writtenOf env1 cfg i (genResp env1 t x p1 i sys).content)
            ⟨cacheSet st1.cache i (writtenOf env1 cfg i (genResp env1 t x p1 i sys).content),
             st1.calls + 1, st1.cost + (genResp env1 t x p1 i sys).total_cost_usd⟩ kc m
            (fun j h1 h2 => hall j (by omega) (by simp only [List.length_cons]; omega))
          simp only [runSteps, hkey]
          rw [if_neg hw, if_neg hrest]
          exact hih

/-- Frame part of cache replay, with no assumption on the cached texts:
running the loop over a range whose every step is cached only loads
files — it never calls the LLM, adds no cost, and leaves the state
untouched (it may still abort on a cached sentinel, which does not
change the state either). -/
theorem runSteps_replay_frame (env : LlmEnv) (cfg : LlmCfg) (t x : String) :
    ∀ (sysList : List String) (i : Nat) (p : String) (st : StepState),
      (∀ j, i ≤ j → j < i + sysList.length → st.cache j ≠ none) →
      (runSteps env cfg t x sysList i p st).2 = st := by
  intro sysList
  induction sysList with
  | nil => intro i p st _; rfl
  | cons sys rest ih =>
    intro i p st hall
    cases hci : st.cache i with
    | none =>
      exact absurd hci (hall i (le_refl i) (by simp only [List.length_cons]; omega))
    | some s =>
      by_cases hs : s = sentinel
      · simp [runSteps, hci, hs]
      · by_cases hrest : rest = []
        · subst hrest; simp [runSteps, hci, hs]
        · simp only [runSteps, hci]
          rw [if_neg hs, if_neg hrest]
          exact ih (i + 1) s st
            (fun j h1 h2 => hall j (by omega) (by simp only [List.length_cons]; omega))

/-- C3 (amended): if after a first `map_term` call every per-step cache
file exists, then a second call with the same arguments unconditionally
makes no external LLM call, adds no cost and leaves the cache
unchanged; and, provided no LLM-generated (possibly re-inserted)
response text equals the reserved sentinel string, it also returns a
result identical to the first call's. -/
theorem llm_cache_replay (env env2 : LlmEnv) (cfg : LlmCfg) (t x : String)
    (targets : List VConcept) (c0 : Nat → Option String)
    (hall : ∀ j, j < cfg.system_prompts.length →
      (llm_map_term env cfg t x targets c0).cache j ≠ none) :
    (llm_map_term env2 cfg t x targets (llm_map_term env cfg t x targets c0).cache).calls = 0 ∧
    (llm_map_term env2 cfg t x targets
        (llm_map_term env cfg t x targets c0).cache).costAdded = 0 ∧
    (llm_map_term env2 cfg t x targets (llm_map_term env cfg t x targets c0).cache).cache
      = (llm_map_term env cfg t x targets c0).cache ∧
    ((∀ p2 s2, (env.llm p2 s2).content ≠ sentinel) →
      (cfg.re_insert_target_details = true → ∀ s2, env.reinsert s2 ≠ sentinel) →
      (llm_map_term env2 cfg t x targets (llm_map_term env cfg t x targets c0).cache).result
        = (llm_map_term env cfg t x targets c0).result) := by
  cases hcfg : cfg.system_prompts with
  | nil =>
    simp [llm_map_term, hcfg]
  | cons sys rest =>
    cases hrs : runSteps env cfg t x (sys :: rest) 0 "" ⟨c0, 0, 0⟩ with
    | mk o st =>
      have hcache1 : (llm_map_term env cfg t x targets c0).cache = st.cache := by
        cases o <;> simp [llm_map_term, hcfg, hrs]
      have hallst : ∀ j, 0 ≤ j → j < 0 + (sys :: rest).length → st.cache j ≠ none := by
        intro j _ hj
        rw [← hcache1]
        exact hall j (by rw [hcfg]; omega)
      rw [hcache1]
      cases hrs2 : runSteps env2 cfg t x (sys :: rest) 0 "" ⟨st.cache, 0, 0⟩ with
      | mk o2 st2 =>
        have hframe : st2 = ⟨st.cache, 0, 0⟩ := by
          have hfr := runSteps_replay_frame env2 cfg t x (sys :: rest) 0 ""
            ⟨st.cache, 0, 0⟩ hallst
          rw [hrs2] at hfr
          exact hfr
        subst hframe
        refine ⟨?_, ?_, ?_, ?_⟩
        · cases o2 <;> simp [llm_map_term, hcfg, hrs2]
        · cases o2 <;> simp [llm_map_term, hcfg, hrs2]
        · cases o2 <;> simp [llm_map_term, hcfg, hrs2]
        · intro hs1 hs2
          have hrepl2 : runSteps env2 cfg t x (sys :: rest) 0 "" ⟨st.cache, 0, 0⟩
              = (o, ⟨st.cache, 0, 0⟩) := by
            have hrepl := runSteps_replay env env2 cfg t x t x hs1 hs2 (sys :: rest) 0 "" ""
              ⟨c0, 0, 0⟩ 0 0 (by intro j h1 h2; rw [hrs]; exact hallst j h1 h2)
            rw [hrs] at hrepl
            exact hrepl
          rw [hrs2] at hrepl2
          injection hrepl2 with ho _
          rw [ho] at hrs2
          cases o <;> simp [llm_map_term, hcfg, hrs, hrs2]

/-- A provider that answers with the sentinel text itself as content. -/
def envSentinel : LlmEnv := ⟨fun _ _ => ⟨sentinel, 1⟩, fun _ => ""⟩

/-- A one-step configuration without detail re-insertion. -/
def cfg1 : LlmCfg := ⟨["s1"], false⟩

/-- The empty cache. -/
def cacheNone : Nat → Option String := fun _ => none

/-- C3 counterexample: when the LLM answers with the reserved sentinel
text as genuine content, the first call caches it and parses it (falling
through to the bare-None outcome), while the second call on the fully
populated cache mistakes the cached text for the content-filter marker
and returns the filtered triple: the results differ even though every
cache file exists and the arguments are identical. -/
theorem llm_cache_replay_counterexample :
    (∀ j, j < cfg1.system_prompts.length →
      (llm_map_term envSentinel cfg1 "t" "x" [] cacheNone).cache j ≠ none) ∧
    (llm_map_term envSentinel cfg1 "t" "x" [] cacheNone).result
      = Except.ok MapOutcome.pyNone ∧
    (llm_map_term envSentinel cfg1 "t" "x" []
        (llm_map_term envSentinel cfg1 "t" "x" [] cacheNone).cache).result
      = Except.ok MapOutcome.filtered ∧
    (llm_map_term envSentinel cfg1 "t" "x" []
        (llm_map_term envSentinel cfg1 "t" "x" [] cacheNone).cache).result
      ≠ (llm_map_term envSentinel cfg1 "t" "x" [] cacheNone).result := by
  refine ⟨?_, rfl, rfl, ?_⟩
  · intro j hj
    have hj0 : j = 0 := by
      simp only [cfg1, List.length_cons, List.length_nil] at hj
      omega
    subst hj0
    rw [show (llm_map_term envSentinel cfg1 "t" "x" [] cacheNone).cache 0
        = some sentinel from rfl]
    simp
  · intro h
    rw [show (llm_map_term envSentinel cfg1 "t" "x" []
          (llm_map_term envSentinel cfg1 "t" "x" [] cacheNone).cache).result
        = Except.ok MapOutcome.filtered from rfl,
      show (llm_map_term envSentinel cfg1 "t" "x" [] cacheNone).result
        = Except.ok MapOutcome.pyNone from rfl] at h
    exact MapOutcome.noConfusion (Except.ok.inj h)

/-- A provider that always decides no-match. -/
def envNoMatch : LlmEnv := ⟨fun _ _ => ⟨"Match: no_match", 1⟩, fun _ => ""⟩

/-- Witness for the amended replay theorem on a concrete two-step run. -/
theorem llm_cache_replay_witness :
    (llm_map_term envNoMatch cfg2 "t" "x" []
        (llm_map_term envNoMatch cfg2 "t" "x" [] cacheNone).cache).calls = 0 ∧
    (llm_map_term envNoMatch cfg2 "t" "x" []
        (llm_map_term envNoMatch cfg2 "t" "x" [] cacheNone).cache).costAdded = 0 ∧
    (llm_map_term envNoMatch cfg2 "t" "x" []
        (llm_map_term envNoMatch cfg2 "t" "x" [] cacheNone).cache).cache
      = (llm_map_term envNoMatch cfg2 "t" "x" [] cacheNone).cache ∧
    (llm_map_term envNoMatch cfg2 "t" "x" []
        (llm_map_term envNoMatch cfg2 "t" "x" [] cacheNone).cache).result
      = (llm_map_term envNoMatch cfg2 "t" "x" [] cacheNone).result := by
  have H := llm_cache_replay envNoMatch envNoMatch cfg2 "t" "x" [] cacheNone
    (by
      have h0 : (llm_map_term envNoMatch cfg2 "t" "x" [] cacheNone).cache 0
          = some "Match: no_match" := rfl
      have h1 : (llm_map_term envNoMatch cfg2 "t" "x" [] cacheNone).cache 1
          = some "Match: no_match" := rfl
      intro j hj
      simp only [cfg2, List.length_cons, List.length_nil] at hj
      interval_cases j
      · rw [h0]; simp
      · rw [h1]; simp)
  exact ⟨H.1, H.2.1, H.2.2.1,
    H.2.2.2 (fun _ _ => show ("Match: no_match" : String) ≠ sentinel by decide)
      (fun h => absurd h (by decide))⟩
